import Mathlib

/-!
Verification of the PSX-GPU command-list interpreter of the Dreamcast PVR
renderer (src/pvr/gpulib_if.c) against its natural-language specification.

The interpreter `do_cmd_list` walks a buffer of 32-bit words, looks up each
command's operand length in the (externally provided) 256-entry table
`cmd_lengths`, copies the packet into a scratch buffer, dispatches on the
opcode (top byte), maintains the persistent renderer state `struct
pvr_renderer pvr`, emits vertices for the drawing opcodes, and accumulates a
cycle-cost estimate.

Modelling conventions:
* 32-bit words are `Nat`; every operation that in C reads a fixed-width field
  masks explicitly (`% 65536`, `% 2048`, ...), so values ≥ 2^32 are handled
  exactly as the truncated C value would be.
* `int16_t` values are `Int` in [-32768, 32767]; C casts/stores into
  `int16_t` are `toInt16` / `wrap16`.
* The cycle counters are unbounded `Int` (32-bit overflow of the cycle
  estimate is not relevant to any claim).
* The float device-coordinate transform (`x_to_pvr`, `y_to_pvr`, fields
  `.x`/`.y`/`.z` of `pvr_vertex_t`) is a strictly monotone rescaling applied
  after all the integer geometry; vertices are modelled at the integer
  coordinates that the source feeds into that transform.
* `cmd_lengths`, `gput_fill` (gpulib headers, not part of this repository)
  are abstract parameters `tbl`, `gfill`.
-/

/-- One emitted vertex: end-of-list flag, packed colour, and the integer
coordinates passed to the (excluded, monotone) float transform. -/
structure PvrVertex where
  eol : Bool
  argb : Nat
  x : Int
  y : Int
deriving DecidableEq, Inhabited

/-- Persistent renderer state, mirroring `struct pvr_renderer`. -/
structure PvrRenderer where
  gp1 : Nat
  draw_x1 : Nat
  draw_y1 : Nat
  draw_x2 : Nat
  draw_y2 : Nat
  draw_dx : Int
  draw_dy : Int
  set_mask : Bool
  check_mask : Bool
deriving DecidableEq, Inhabited

/-- Word read from the packet buffer; indexes past the end read 0 (the C
code never reads past the copied packet for a well-formed length table). -/
def getw (pb : List Nat) (i : Nat) : Nat := pb.getD i 0

/-- The `U2` view of `union PacketBuffer`: 16-bit halfword `i` of the packet
(little-endian host, as on the SH-4). -/
def u2 (pb : List Nat) (i : Nat) : Nat :=
  if i % 2 = 0 then getw pb (i / 2) % 65536 else getw pb (i / 2) / 65536 % 65536

/-- Opcode of a command word: `*list >> 24` on a `uint32_t`. -/
def opcode (w : Nat) : Nat := w / 16777216 % 256

/-- The C cast `(int16_t)v` of a 32-bit value. -/
def toInt16 (n : Nat) : Int :=
  if n % 65536 < 32768 then (n % 65536 : Int) else (n % 65536 : Int) - 65536

/-- Wrap of an `int` result stored into an `int16_t`. -/
def wrap16 (x : Int) : Int := (x + 32768) % 65536 - 32768

/-- Sign extension of an 11-bit two's-complement field, the effect of
`((int32_t)w << 21) >> 21` on the low 11 bits of `w`. -/
def sext11 (n : Nat) : Int :=
  if n % 2048 < 1024 then (n % 2048 : Int) else (n % 2048 : Int) - 2048

/-- Encoding of a signed value into an 11-bit two's-complement field
(used to build drawing-offset command words in round-trip statements). -/
def enc11 (v : Int) : Nat := (v % 2048).toNat

/-- `__builtin_bswap32` on a 32-bit word. -/
def bswap32 (w : Nat) : Nat :=
  w % 256 * 16777216 + w / 256 % 256 * 65536 + w / 65536 % 256 * 256 +
    w / 16777216 % 256

/-- The BGR→RGB colour conversion `__builtin_bswap32(w) >> 8` used by every
drawing opcode. -/
def convert_color (w : Nat) : Nat := bswap32 w / 256

/-- Result of `cmd_clear_image` (the decoded fill rectangle). The source
computes these four values and then discards them (cache invalidation is a
TODO in the source). -/
structure ClearImage where
  x0 : Nat
  y0 : Nat
  w0 : Nat
  h0 : Nat
deriving DecidableEq

/-- `cmd_clear_image`: decode x,y,w,h of a fill-rectangle packet.
`(u + 1023) % 1024` is `((int)u - 1) & 0x3ff` for a `uint16_t` operand, and
`% 16` is the literal `& 0xf` of the source (the comment in the source says
the horizontal values work in 16-pixel blocks, i.e. intends `& ~0xf`). -/
def cmd_clear_image (pb : List Nat) : ClearImage :=
  let x0 := u2 pb 2 % 1024
  let y0 := u2 pb 3 % 512
  let w0 := (u2 pb 4 + 1023) % 1024 + 1
  let h0 := (u2 pb 5 + 511) % 512 + 1
  ⟨(x0 + 14) % 16, y0, (w0 + 14) % 16, h0⟩

/-- `draw_line`: expand one segment into 6 vertices (two triangles), the
sixth carrying the end-of-list flag. `up = y1 < y0` selects which endpoint
gets the 1-pixel offset. The coordinate arrays are `int16_t` in the source,
hence the `wrap16` on every stored sum. -/
def draw_line (x0 y0 : Int) (color0 : Nat) (x1 y1 : Int) (color1 : Nat) :
    List PvrVertex :=
  let up : Int := if y1 < y0 then 1 else 0
  let nup : Int := 1 - up
  [{ eol := false, argb := color0, x := x0, y := wrap16 (y0 + up) },
   { eol := false, argb := color0, x := x0, y := wrap16 (y0 + nup) },
   { eol := false, argb := color0, x := wrap16 (x0 + 1), y := wrap16 (y0 + up) },
   { eol := false, argb := color1, x := x1, y := wrap16 (y1 + nup) },
   { eol := false, argb := color1, x := wrap16 (x1 + 1), y := wrap16 (y1 + up) },
   { eol := true, argb := color1, x := wrap16 (x1 + 1), y := wrap16 (y1 + nup) }]

/-- Vertex loop of the flat/gouraud polygon cases (0x20/0x28/0x30/0x38):
`rem` counts the remaining iterations, `i` is the loop index, `bufidx` the
packet read position, `color` the last colour consumed. `i + 1 == nb` is the
source's `i == nb - 1` (the loop only runs for `i < nb`). -/
def poly_go (multicolor : Bool) (nb : Nat) (pb : List Nat) :
    Nat → Nat → Nat → Nat → List PvrVertex
  | 0, _, _, _ => []
  | rem + 1, i, bufidx, color =>
    let pick : Bool := i == 0 || multicolor
    let color2 := if pick then convert_color (getw pb bufidx) else color
    let bi := if pick then bufidx + 1 else bufidx
    let val := getw pb bi
    { eol := i + 1 == nb, argb := color2,
      x := toInt16 val, y := toInt16 (val / 65536) } ::
      poly_go multicolor nb pb rem (i + 1) (bi + 1) color2

/-- Vertices of a non-textured polygon command (nb = 3 or 4 vertices). -/
def poly_verts (multicolor : Bool) (nb : Nat) (pb : List Nat) : List PvrVertex :=
  poly_go multicolor nb pb nb 0 0 0

/-- Segment loop of the line cases (0x40/0x50); `rem` is the remaining
iteration count (`nb - 1 = 1` for the 2-point commands). The segment is
passed to `draw_line` with the previous point first unless `oldx > x`. -/
def line_go (multicolor : Bool) (pb : List Nat) :
    Nat → Nat → Int → Int → Nat → Nat → List PvrVertex
  | 0, _, _, _, _, _ => []
  | rem + 1, bufidx, oldx, oldy, oldcolor, color =>
    let color2 := if multicolor then convert_color (getw pb bufidx) else color
    let bi := if multicolor then bufidx + 1 else bufidx
    let val := getw pb bi
    let x := toInt16 val
    let y := toInt16 (val / 65536)
    let seg := if oldx > x then draw_line x y color2 oldx oldy oldcolor
               else draw_line oldx oldy oldcolor x y color2
    seg ++ line_go multicolor pb rem (bi + 1) x y color2 color2

/-- Vertices of a 2-point line command (0x40 monochrome / 0x50 shaded). -/
def line_verts (multicolor : Bool) (pb : List Nat) : List PvrVertex :=
  let color := convert_color (getw pb 0)
  let val := getw pb 1
  line_go multicolor pb 1 2 (toInt16 val) (toInt16 (val / 65536)) color color

/-- Vertices of the monochrome rectangle command (0x60): corners in the
order top-left, top-right, bottom-left, bottom-right, last one closing. -/
def rect_verts (pb : List Nat) : List PvrVertex :=
  let color := convert_color (getw pb 0)
  let x0 := toInt16 (getw pb 1)
  let y0 := toInt16 (getw pb 1 / 65536)
  let x1 := wrap16 (x0 + toInt16 (getw pb 2))
  let y1 := wrap16 (y0 + toInt16 (getw pb 2 / 65536))
  [{ eol := false, argb := color, x := x0, y := y0 },
   { eol := false, argb := color, x := x1, y := y0 },
   { eol := false, argb := color, x := x0, y := y1 },
   { eol := true, argb := color, x := x1, y := y1 }]

/-- Modelled from the spec: gpulib's `gput_sum` macro (gpu_timing.h is not in
src/). The spec says the per-command cycle-cost estimate is accumulated into
the accumulator and the cycle counter, so both counters advance by the cost. -/
def gput_sum (sum cycles cost : Int) : Int × Int := (sum + cost, cycles + cost)

/-- One iteration body of the `do_cmd_list` switch: given the opcode `c` and
the copied packet `pb`, return the new renderer state, the vertices emitted,
and the cycle cost passed to `gput_sum` (0 for every case that does not call
it).  The final catch-all branch covers the source cases 0x00, 0x01,
0x80...0xdf (VRAM access), 0xe2 (texture window, TODO), the non-implemented
polygon/line/rectangle variants 0x21...0x3f, 0x41...0x5a, 0x61...0x7f, and
the `default` label — all of which only print in debug builds. -/
def exec_cmd (gfill : Nat → Nat → Int) (c : Nat) (pb : List Nat)
    (st : PvrRenderer) : PvrRenderer × List PvrVertex × Int :=
  if c = 0x02 then
    -- cmd_clear_image pb is invoked in the source; its result is discarded,
    -- and the cost uses the raw (unrounded) U2[4]/U2[5] extents.
    (st, [], gfill (u2 pb 4 % 1024) (u2 pb 5 % 512))
  else if c = 0xe1 then
    ({ st with gp1 := st.gp1 / 2048 * 2048 + getw pb 0 % 2048 }, [], 0)
  else if c = 0xe3 then
    ({ st with draw_x1 := getw pb 0 % 1024, draw_y1 := getw pb 0 / 1024 % 512 }, [], 0)
  else if c = 0xe4 then
    ({ st with draw_x2 := getw pb 0 % 1024, draw_y2 := getw pb 0 / 1024 % 512 }, [], 0)
  else if c = 0xe5 then
    ({ st with draw_dx := sext11 (getw pb 0), draw_dy := sext11 (getw pb 0 / 2048) }, [], 0)
  else if c = 0xe6 then
    ({ st with set_mask := getw pb 0 % 2 == 1, check_mask := getw pb 0 / 2 % 2 == 1 }, [], 0)
  else if c = 0x20 ∨ c = 0x28 ∨ c = 0x30 ∨ c = 0x38 then
    (st, poly_verts (c / 16 % 2 == 1) (3 + c / 8 % 2) pb, 0)
  else if c = 0x40 ∨ c = 0x50 then
    (st, line_verts (c / 16 % 2 == 1) pb, 0)
  else if c = 0x60 then
    (st, rect_verts pb, 0)
  else
    (st, [], 0)

/-- Outcome of the interpreter loop: words consumed, the final value of the
`cmd` variable (−1 after the truncation break), final state, emitted
vertices, and the two cycle-counter deltas. -/
structure LoopRes where
  consumed : Nat
  last_cmd : Int
  pvr : PvrRenderer
  verts : List PvrVertex
  cycles_sum : Int
  cpu_cycles : Int
deriving DecidableEq, Inhabited

/-- The `for (; list < list_end; list += 1 + len)` loop of `do_cmd_list`,
with an explicit fuel so the definition is structural (each iteration
consumes at least one word, so fuel `buf.length` always suffices; the
fuel-0, nonempty-buffer case is unreachable from `runLoop`). `cmd` is the
running value of the source's `cmd` variable (initially 0). -/
def do_cmd_loop (tbl : Nat → Nat) (gfill : Nat → Nat → Int) :
    Nat → List Nat → PvrRenderer → Int → LoopRes
  | _, [], st, cmd => ⟨0, cmd, st, [], 0, 0⟩
  | 0, _ :: _, st, cmd => ⟨0, cmd, st, [], 0, 0⟩
  | fuel + 1, w :: rest, st, _cmd =>
    let c := opcode w
    let len := tbl c
    if rest.length + 1 < 1 + len then ⟨0, -1, st, [], 0, 0⟩
    else
      let pb := (w :: rest).take (1 + len)
      let e := exec_cmd gfill c pb st
      let r := do_cmd_loop tbl gfill fuel ((w :: rest).drop (1 + len)) e.1 (c : Int)
      let cy := gput_sum r.cycles_sum r.cpu_cycles e.2.2
      ⟨1 + len + r.consumed, r.last_cmd, r.pvr, e.2.1 ++ r.verts, cy.1, cy.2⟩

/-- The interpreter loop at its canonical fuel. -/
def runLoop (tbl : Nat → Nat) (gfill : Nat → Nat → Int) (buf : List Nat)
    (st : PvrRenderer) (cmd : Int) : LoopRes :=
  do_cmd_loop tbl gfill buf.length buf st cmd

/-- Full outcome of `do_cmd_list`: its return value (words consumed), the
`*last_cmd` output, the final renderer state, the updated `gpu.ex_regs[1]`,
the emitted vertices, and the `*cycles_sum_out` / `*cycles_last` outputs. -/
structure CmdListRes where
  ret : Nat
  last_cmd : Int
  pvr : PvrRenderer
  ex_regs1 : Nat
  verts : List PvrVertex
  cycles_sum_out : Int
  cycles_last_out : Int
deriving DecidableEq, Inhabited

/-- `do_cmd_list(list, list_len, cycles_sum_out, cycles_last, last_cmd)`.
After the loop the source replaces the low 9 bits of `gpu.ex_regs[1]`
(`&= ~0x1ff; |= pvr.gp1 & 0x1ff`), adds the summed cycles to
`*cycles_sum_out`, stores the advanced `cpu_cycles` back into
`*cycles_last`, stores `cmd` into `*last_cmd` and returns the word count. -/
def do_cmd_list (tbl : Nat → Nat) (gfill : Nat → Nat → Int) (list : List Nat)
    (st : PvrRenderer) (ex_regs1 : Nat) (cycles_sum_in cycles_last_in : Int) :
    CmdListRes :=
  let r := runLoop tbl gfill list st 0
  { ret := r.consumed, last_cmd := r.last_cmd, pvr := r.pvr,
    ex_regs1 := ex_regs1 / 512 * 512 + r.pvr.gp1 % 512,
    verts := r.verts,
    cycles_sum_out := cycles_sum_in + r.cycles_sum,
    cycles_last_out := cycles_last_in + r.cpu_cycles }

/-- The renderer state set up by `renderer_init` (`pvr` zeroed, then
`pvr.gp1 = 0x14802000`). -/
def init_pvr : PvrRenderer :=
  { gp1 := 0x14802000, draw_x1 := 0, draw_y1 := 0, draw_x2 := 0, draw_y2 := 0,
    draw_dx := 0, draw_dy := 0, set_mask := false, check_mask := false }

/-- A packet list is one fully-formed command: nonempty, with exactly
`1 + cmd_lengths[opcode]` words. -/
def completeCmd (tbl : Nat → Nat) (p : List Nat) : Prop :=
  p ≠ [] ∧ p.length = 1 + tbl (opcode (getw p 0))

instance (tbl : Nat → Nat) (p : List Nat) : Decidable (completeCmd tbl p) := by
  unfold completeCmd; infer_instance

/-- In-order processing of a list of already-split command packets: the
reference against which the flat loop is proved, built from the same
`exec_cmd` step. -/
def runCmds (tbl : Nat → Nat) (gfill : Nat → Nat → Int) :
    List (List Nat) → PvrRenderer → Int → LoopRes
  | [], st, cmd => ⟨0, cmd, st, [], 0, 0⟩
  | p :: ps, st, _cmd =>
    let c := opcode (getw p 0)
    let e := exec_cmd gfill c p st
    let r := runCmds tbl gfill ps e.1 (c : Int)
    ⟨p.length + r.consumed, r.last_cmd, r.pvr, e.2.1 ++ r.verts,
      e.2.2 + r.cycles_sum, e.2.2 + r.cpu_cycles⟩

/-- Concrete sample length table used to instantiate the abstract
`cmd_lengths` parameter in witnesses: the lengths of the opcodes exercised
there (NOP, fill, flat polygons, lines, rectangle, the 0xEx state ops). -/
def sampleTbl : Nat → Nat := fun c =>
  if c = 0x02 then 2 else if c = 0x20 then 3 else if c = 0x28 then 4 else
  if c = 0x30 then 5 else if c = 0x38 then 7 else if c = 0x40 then 2 else
  if c = 0x50 then 3 else if c = 0x60 then 2 else 0

/-- Concrete sample fill-cost function for witnesses (injective in both
arguments, so witnesses observe which extents were passed). -/
def sampleGfill : Nat → Nat → Int := fun w h => (w : Int) * 100000 + (h : Int)

/-- Per-command cycle cost of the interpreter: the fill command (0x02) costs
`gput_fill` of the raw masked width/height halfwords; every other opcode
adds nothing (`gput_sum` is only invoked in the 0x02 case of the switch). -/
def cmd_cost (gfill : Nat → Nat → Int) (p : List Nat) : Int :=
  if opcode (getw p 0) = 0x02 then gfill (u2 p 4 % 1024) (u2 p 5 % 512) else 0

/-- Result of one completed command prepended to the result of the rest of
the loop (the shape of one iteration of `do_cmd_loop`). -/
def mergeCmd (e : PvrRenderer × List PvrVertex × Int) (len : Nat) (r : LoopRes) :
    LoopRes :=
  ⟨1 + len + r.consumed, r.last_cmd, r.pvr, e.2.1 ++ r.verts,
    (gput_sum r.cycles_sum r.cpu_cycles e.2.2).1,
    (gput_sum r.cycles_sum r.cpu_cycles e.2.2).2⟩

/-- Sequential composition of two loop outcomes. -/
def mergeRes (a b : LoopRes) : LoopRes :=
  ⟨a.consumed + b.consumed, b.last_cmd, b.pvr, a.verts ++ b.verts,
    a.cycles_sum + b.cycles_sum, a.cpu_cycles + b.cpu_cycles⟩

theorem do_cmd_loop_nil (tbl : Nat → Nat) (gfill : Nat → Nat → Int) (fuel : Nat)
    (st : PvrRenderer) (c : Int) :
    do_cmd_loop tbl gfill fuel [] st c = ⟨0, c, st, [], 0, 0⟩ := by
  cases fuel <;> rfl

theorem do_cmd_loop_trunc (tbl : Nat → Nat) (gfill : Nat → Nat → Int) (fuel : Nat)
    (w : Nat) (t : List Nat) (st : PvrRenderer) (c : Int)
    (h : (w :: t).length < 1 + tbl (opcode w)) :
    do_cmd_loop tbl gfill (fuel + 1) (w :: t) st c = ⟨0, -1, st, [], 0, 0⟩ := by
  have h' : t.length + 1 < 1 + tbl (opcode w) := by simpa using h
  simp [do_cmd_loop, h']

theorem do_cmd_loop_step (tbl : Nat → Nat) (gfill : Nat → Nat → Int) (fuel : Nat)
    (w : Nat) (t : List Nat) (st : PvrRenderer) (c : Int)
    (h : ¬ (w :: t).length < 1 + tbl (opcode w)) :
    do_cmd_loop tbl gfill (fuel + 1) (w :: t) st c =
      mergeCmd (exec_cmd gfill (opcode w) ((w :: t).take (1 + tbl (opcode w))) st)
        (tbl (opcode w))
        (do_cmd_loop tbl gfill fuel ((w :: t).drop (1 + tbl (opcode w)))
          (exec_cmd gfill (opcode w) ((w :: t).take (1 + tbl (opcode w))) st).1
          (opcode w)) := by
  have h' : ¬ t.length + 1 < 1 + tbl (opcode w) := by simpa using h
  simp [do_cmd_loop, h', mergeCmd]

theorem do_cmd_loop_fuel_irrel (tbl : Nat → Nat) (gfill : Nat → Nat → Int) :
    ∀ fuel fuel' (buf : List Nat) (st : PvrRenderer) (c : Int),
      buf.length ≤ fuel → buf.length ≤ fuel' →
      do_cmd_loop tbl gfill fuel buf st c = do_cmd_loop tbl gfill fuel' buf st c := by
  intro fuel
  induction fuel with
  | zero =>
    intro fuel' buf st c h1 _
    have : buf = [] := List.length_eq_zero.mp (Nat.le_zero.mp h1)
    subst this
    rw [do_cmd_loop_nil, do_cmd_loop_nil]
  | succ f ih =>
    intro fuel' buf st c h1 h2
    match buf, fuel' with
    | [], _ => rw [do_cmd_loop_nil, do_cmd_loop_nil]
    | w :: t, 0 => exact absurd h2 (by simp)
    | w :: t, f' + 1 =>
      by_cases htr : (w :: t).length < 1 + tbl (opcode w)
      · rw [do_cmd_loop_trunc tbl gfill f w t st c htr,
          do_cmd_loop_trunc tbl gfill f' w t st c htr]
      · have hL : t.length + 1 ≤ f + 1 := by simpa using h1
        have hL' : t.length + 1 ≤ f' + 1 := by simpa using h2
        rw [do_cmd_loop_step tbl gfill f w t st c htr,
          do_cmd_loop_step tbl gfill f' w t st c htr]
        rw [ih f' ((w :: t).drop (1 + tbl (opcode w))) _ _
          (by simp only [List.length_drop, List.length_cons]; omega)
          (by simp only [List.length_drop, List.length_cons]; omega)]

theorem runLoop_nil (tbl : Nat → Nat) (gfill : Nat → Nat → Int)
    (st : PvrRenderer) (c : Int) :
    runLoop tbl gfill [] st c = ⟨0, c, st, [], 0, 0⟩ := rfl

theorem runLoop_trunc (tbl : Nat → Nat) (gfill : Nat → Nat → Int)
    (w : Nat) (t : List Nat) (st : PvrRenderer) (c : Int)
    (h : (w :: t).length < 1 + tbl (opcode w)) :
    runLoop tbl gfill (w :: t) st c = ⟨0, -1, st, [], 0, 0⟩ :=
  do_cmd_loop_trunc tbl gfill t.length w t st c h

theorem runLoop_carry_irrel (tbl : Nat → Nat) (gfill : Nat → Nat → Int)
    (buf : List Nat) (st : PvrRenderer) (c c' : Int) (h : buf ≠ []) :
    runLoop tbl gfill buf st c = runLoop tbl gfill buf st c' := by
  match buf with
  | [] => exact absurd rfl h
  | w :: t =>
    by_cases htr : (w :: t).length < 1 + tbl (opcode w)
    · rw [runLoop_trunc tbl gfill w t st c htr, runLoop_trunc tbl gfill w t st c' htr]
    · unfold runLoop
      rw [show (w :: t).length = t.length + 1 from rfl]
      rw [do_cmd_loop_step tbl gfill t.length w t st c htr,
        do_cmd_loop_step tbl gfill t.length w t st c' htr]

theorem runLoop_cons_complete (tbl : Nat → Nat) (gfill : Nat → Nat → Int)
    (p rest : List Nat) (st : PvrRenderer) (c : Int) (hp : completeCmd tbl p) :
    runLoop tbl gfill (p ++ rest) st c =
      mergeCmd (exec_cmd gfill (opcode (getw p 0)) p st) (tbl (opcode (getw p 0)))
        (runLoop tbl gfill rest (exec_cmd gfill (opcode (getw p 0)) p st).1
          (opcode (getw p 0))) := by
  obtain ⟨hne, hlen⟩ := hp
  match p, hne with
  | w :: t, _ =>
    have hw : getw (w :: t) 0 = w := rfl
    have hlen' : t.length + 1 = 1 + tbl (opcode w) := by simpa using hlen
    have hfull : ((w :: t) ++ rest).length = (t.length + rest.length) + 1 := by
      simp only [List.length_append, List.length_cons]; omega
    have hnotr : ¬ (w :: (t ++ rest)).length < 1 + tbl (opcode w) := by
      simp only [List.length_cons, List.length_append]; omega
    unfold runLoop
    rw [hfull]
    have hstep := do_cmd_loop_step tbl gfill (t.length + rest.length) w (t ++ rest) st c hnotr
    rw [show (w :: t) ++ rest = w :: (t ++ rest) from rfl, hstep]
    have htake : (w :: (t ++ rest)).take (1 + tbl (opcode w)) = w :: t := by
      rw [← hlen']
      simp [List.take_succ_cons, List.take_left]
    have hdrop : (w :: (t ++ rest)).drop (1 + tbl (opcode w)) = rest := by
      rw [← hlen']
      simp [List.drop_succ_cons, List.drop_left]
    rw [htake, hdrop, hw]
    rw [do_cmd_loop_fuel_irrel tbl gfill (t.length + rest.length) rest.length rest _ _
      (by omega) (by omega)]

theorem mergeRes_nil_left (x : Int) (y : PvrRenderer) (b : LoopRes) :
    mergeRes ⟨0, x, y, [], 0, 0⟩ b = b := by
  cases b; simp [mergeRes]

theorem mergeRes_nil_right (a : LoopRes) :
    mergeRes a ⟨0, a.last_cmd, a.pvr, [], 0, 0⟩ = a := by
  cases a; simp [mergeRes]

theorem runLoop_flatten (tbl : Nat → Nat) (gfill : Nat → Nat → Int) :
    ∀ (cmds : List (List Nat)) (rest : List Nat) (st : PvrRenderer) (c : Int),
      (∀ p ∈ cmds, completeCmd tbl p) →
      runLoop tbl gfill (cmds.flatten ++ rest) st c =
        mergeRes (runCmds tbl gfill cmds st c)
          (runLoop tbl gfill rest (runCmds tbl gfill cmds st c).pvr
            (runCmds tbl gfill cmds st c).last_cmd) := by
  intro cmds
  induction cmds with
  | nil =>
    intro rest st c _
    rw [show (List.flatten ([] : List (List Nat))) ++ rest = rest from by simp]
    rw [show runCmds tbl gfill [] st c = ⟨0, c, st, [], 0, 0⟩ from rfl,
      mergeRes_nil_left]
  | cons p ps ih =>
    intro rest st c h
    have hp : completeCmd tbl p := h p (List.mem_cons_self p ps)
    have hps : ∀ q ∈ ps, completeCmd tbl q := fun q hq => h q (List.mem_cons_of_mem p hq)
    rw [show (p :: ps).flatten ++ rest = p ++ (ps.flatten ++ rest) from by
      simp [List.flatten_cons, List.append_assoc]]
    rw [runLoop_cons_complete tbl gfill p (ps.flatten ++ rest) st c hp]
    rw [ih rest _ _ hps]
    have hplen : p.length = 1 + tbl (opcode (getw p 0)) := hp.2
    simp only [mergeCmd, mergeRes, runCmds, gput_sum, LoopRes.mk.injEq]
    exact ⟨by omega, trivial, trivial, by simp [List.append_assoc], by ring, by ring⟩

theorem runCmds_consumed (tbl : Nat → Nat) (gfill : Nat → Nat → Int) :
    ∀ (cmds : List (List Nat)) (st : PvrRenderer) (c : Int),
      (runCmds tbl gfill cmds st c).consumed = (cmds.map List.length).sum := by
  intro cmds
  induction cmds with
  | nil => intro st c; rfl
  | cons p ps ih => intro st c; simp [runCmds, ih]

theorem exec_cmd_cost (gfill : Nat → Nat → Int) (c : Nat) (pb : List Nat)
    (st : PvrRenderer) :
    (exec_cmd gfill c pb st).2.2 =
      if c = 0x02 then gfill (u2 pb 4 % 1024) (u2 pb 5 % 512) else 0 := by
  unfold exec_cmd
  split_ifs <;> rfl

theorem runCmds_cycles (tbl : Nat → Nat) (gfill : Nat → Nat → Int) :
    ∀ (cmds : List (List Nat)) (st : PvrRenderer) (c : Int),
      (runCmds tbl gfill cmds st c).cycles_sum = (cmds.map (cmd_cost gfill)).sum := by
  intro cmds
  induction cmds with
  | nil => intro st c; rfl
  | cons p ps ih =>
    intro st c
    simp only [runCmds, List.map_cons, List.sum_cons, ih]
    rw [exec_cmd_cost]
    rfl

/-- C1: for an input buffer that is the concatenation of fully-formed
commands (each holding exactly `1 + cmd_lengths[opcode]` words),
`do_cmd_list` consumes and returns exactly the sum over the commands of
`1 + length` words, and processes the commands in buffer order: the loop
result equals the in-order per-command fold `runCmds`. -/
theorem cmd_list_completeness (tbl : Nat → Nat) (gfill : Nat → Nat → Int)
    (cmds : List (List Nat)) (st : PvrRenderer) (exr : Nat) (cs cl : Int)
    (h : ∀ p ∈ cmds, completeCmd tbl p) :
    (do_cmd_list tbl gfill cmds.flatten st exr cs cl).ret =
      (cmds.map fun p => 1 + tbl (opcode (getw p 0))).sum ∧
    runLoop tbl gfill cmds.flatten st 0 = runCmds tbl gfill cmds st 0 := by
  have hmain : runLoop tbl gfill cmds.flatten st 0 = runCmds tbl gfill cmds st 0 := by
    have hfl := runLoop_flatten tbl gfill cmds [] st 0 h
    rw [List.append_nil] at hfl
    rw [hfl, runLoop_nil, mergeRes_nil_right]
  refine ⟨?_, hmain⟩
  show (runLoop tbl gfill cmds.flatten st 0).consumed = _
  rw [hmain, runCmds_consumed]
  congr 1
  exact List.map_congr_left fun p hp => (h p hp).2

theorem cmd_list_completeness_witness :
    (do_cmd_list sampleTbl sampleGfill
        ([[0xe1000123], [0x60ff0000, 0x00020001, 0x00020003]].flatten)
        init_pvr 0 0 0).ret =
      ([[0xe1000123], [0x60ff0000, 0x00020001, 0x00020003]].map
        fun p => 1 + sampleTbl (opcode (getw p 0))).sum ∧
    runLoop sampleTbl sampleGfill
        ([[0xe1000123], [0x60ff0000, 0x00020001, 0x00020003]].flatten) init_pvr 0 =
      runCmds sampleTbl sampleGfill
        [[0xe1000123], [0x60ff0000, 0x00020001, 0x00020003]] init_pvr 0 :=
  cmd_list_completeness sampleTbl sampleGfill
    [[0xe1000123], [0x60ff0000, 0x00020001, 0x00020003]] init_pvr 0 0 0 (by decide)

/-- C9: `do_cmd_list` adds to the cycle accumulator the sum of a
per-command cost: `gput_fill` of the raw masked width/height for the
fill-rectangle opcode 0x02, and 0 for every other opcode class (`gput_sum`
is invoked only in the 0x02 case of the source switch). -/
theorem cycle_cost_accumulation (tbl : Nat → Nat) (gfill : Nat → Nat → Int)
    (cmds : List (List Nat)) (st : PvrRenderer) (exr : Nat) (cs cl : Int)
    (h : ∀ p ∈ cmds, completeCmd tbl p) :
    (do_cmd_list tbl gfill cmds.flatten st exr cs cl).cycles_sum_out =
      cs + (cmds.map (cmd_cost gfill)).sum ∧
    (∀ p : List Nat, opcode (getw p 0) = 0x02 →
      cmd_cost gfill p = gfill (u2 p 4 % 1024) (u2 p 5 % 512)) ∧
    (∀ p : List Nat, opcode (getw p 0) ≠ 0x02 → cmd_cost gfill p = 0) := by
  refine ⟨?_, fun p hp => by simp [cmd_cost, hp], fun p hp => by simp [cmd_cost, hp]⟩
  have hmain := runLoop_flatten tbl gfill cmds [] st 0 h
  rw [List.append_nil, runLoop_nil, mergeRes_nil_right] at hmain
  show cs + (runLoop tbl gfill cmds.flatten st 0).cycles_sum = _
  rw [hmain, runCmds_cycles]

theorem cycle_cost_accumulation_witness :
    (do_cmd_list sampleTbl sampleGfill
        ([[0x02000000, 0x00000000, 0x00200010], [0x00000000]].flatten)
        init_pvr 0 7 0).cycles_sum_out =
      7 + ([[0x02000000, 0x00000000, 0x00200010], [0x00000000]].map
            (cmd_cost sampleGfill)).sum ∧
    (∀ p : List Nat, opcode (getw p 0) = 0x02 →
      cmd_cost sampleGfill p = sampleGfill (u2 p 4 % 1024) (u2 p 5 % 512)) ∧
    (∀ p : List Nat, opcode (getw p 0) ≠ 0x02 → cmd_cost sampleGfill p = 0) :=
  cycle_cost_accumulation sampleTbl sampleGfill
    [[0x02000000, 0x00000000, 0x00200010], [0x00000000]] init_pvr 0 7 0 (by decide)

/-- C4 (amended): on every exit of `do_cmd_list` the status register
`gpu.ex_regs[1]` has its low **9** bits (mask 0x1ff in the source, not the
11-bit mask the spec claims) replaced by the low 9 bits of `pvr.gp1`, all
higher bits left unchanged. -/
theorem status_writeback_low9bits (tbl : Nat → Nat) (gfill : Nat → Nat → Int)
    (list : List Nat) (st : PvrRenderer) (exr : Nat) (cs cl : Int) :
    (do_cmd_list tbl gfill list st exr cs cl).ex_regs1 % 512 =
      (do_cmd_list tbl gfill list st exr cs cl).pvr.gp1 % 512 ∧
    (do_cmd_list tbl gfill list st exr cs cl).ex_regs1 / 512 = exr / 512 := by
  simp only [do_cmd_list]
  constructor <;> omega

/-- C4 counterexample: a set-texture-page command (0xe1) whose low-11-bit
payload has bit 9 set updates `gp1`, but the write-back masks only 9 bits,
so the low 11 bits of the status register and of `gp1` disagree — refuting
the claim that the low 11 bits are copied. -/
theorem status_writeback_11bits_cex :
    ¬ ((do_cmd_list sampleTbl sampleGfill [0xe1000200] init_pvr 0 0 0).ex_regs1 % 2048 =
        (do_cmd_list sampleTbl sampleGfill [0xe1000200] init_pvr 0 0 0).pvr.gp1 % 2048) := by
  decide

/-- C10: on an empty buffer `do_cmd_list` returns 0 words consumed, leaves
the renderer state and both cycle counters unchanged, and reports last
command 0 (the NOP opcode) — not the sentinel −1 — which is exactly what a
buffer ending in a processed NOP reports, so the two are indistinguishable
through `*last_cmd`. -/
theorem empty_buffer_returns_nop (tbl : Nat → Nat) (gfill : Nat → Nat → Int)
    (st : PvrRenderer) (exr : Nat) (cs cl : Int) (h : tbl 0 = 0) :
    (do_cmd_list tbl gfill [] st exr cs cl).ret = 0 ∧
    (do_cmd_list tbl gfill [] st exr cs cl).pvr = st ∧
    (do_cmd_list tbl gfill [] st exr cs cl).cycles_sum_out = cs ∧
    (do_cmd_list tbl gfill [] st exr cs cl).cycles_last_out = cl ∧
    (do_cmd_list tbl gfill [] st exr cs cl).last_cmd = 0 ∧
    (do_cmd_list tbl gfill [] st exr cs cl).last_cmd ≠ -1 ∧
    (do_cmd_list tbl gfill [0] st exr cs cl).last_cmd = 0 := by
  have hc : completeCmd tbl [0] := by
    refine ⟨by simp, ?_⟩
    simp [getw, opcode, h]
  have h1 := runLoop_cons_complete tbl gfill [0] [] st 0 hc
  rw [List.append_nil] at h1
  simp only [do_cmd_list, runLoop_nil, h1, mergeCmd]
  norm_num [runLoop_nil, opcode, getw]

theorem empty_buffer_returns_nop_witness :
    (do_cmd_list sampleTbl sampleGfill [] init_pvr 3 5 11).ret = 0 ∧
    (do_cmd_list sampleTbl sampleGfill [] init_pvr 3 5 11).pvr = init_pvr ∧
    (do_cmd_list sampleTbl sampleGfill [] init_pvr 3 5 11).cycles_sum_out = 5 ∧
    (do_cmd_list sampleTbl sampleGfill [] init_pvr 3 5 11).cycles_last_out = 11 ∧
    (do_cmd_list sampleTbl sampleGfill [] init_pvr 3 5 11).last_cmd = 0 ∧
    (do_cmd_list sampleTbl sampleGfill [] init_pvr 3 5 11).last_cmd ≠ -1 ∧
    (do_cmd_list sampleTbl sampleGfill [0] init_pvr 3 5 11).last_cmd = 0 :=
  empty_buffer_returns_nop sampleTbl sampleGfill init_pvr 3 5 11 (by decide)

/-- C2: on a buffer whose trailing command is truncated, `do_cmd_list`
stops there: it reports the sentinel last command −1 and returns exactly
the offset (in words) at which the truncated command begins; re-invoking
on that partial command plus the missing words (with the register and
cycle outputs of the first call carried over) continues exactly as one
single invocation on the whole buffer would have. -/
theorem cmd_list_truncation_resume (tbl : Nat → Nat) (gfill : Nat → Nat → Int)
    (cmds : List (List Nat)) (t ext : List Nat) (st : PvrRenderer) (exr : Nat)
    (cs cl : Int) (hc : ∀ p ∈ cmds, completeCmd tbl p) (ht0 : t ≠ [])
    (ht : t.length < 1 + tbl (opcode (getw t 0))) :
    (do_cmd_list tbl gfill (cmds.flatten ++ t) st exr cs cl).ret =
      cmds.flatten.length ∧
    (do_cmd_list tbl gfill (cmds.flatten ++ t) st exr cs cl).last_cmd = -1 ∧
    (do_cmd_list tbl gfill (cmds.flatten ++ t ++ ext) st exr cs cl).ret =
      (do_cmd_list tbl gfill (cmds.flatten ++ t) st exr cs cl).ret +
      (do_cmd_list tbl gfill (t ++ ext)
        (do_cmd_list tbl gfill (cmds.flatten ++ t) st exr cs cl).pvr
        (do_cmd_list tbl gfill (cmds.flatten ++ t) st exr cs cl).ex_regs1
        (do_cmd_list tbl gfill (cmds.flatten ++ t) st exr cs cl).cycles_sum_out
        (do_cmd_list tbl gfill (cmds.flatten ++ t) st exr cs cl).cycles_last_out).ret ∧
    (do_cmd_list tbl gfill (cmds.flatten ++ t ++ ext) st exr cs cl).last_cmd =
      (do_cmd_list tbl gfill (t ++ ext)
        (do_cmd_list tbl gfill (cmds.flatten ++ t) st exr cs cl).pvr
        (do_cmd_list tbl gfill (cmds.flatten ++ t) st exr cs cl).ex_regs1
        (do_cmd_list tbl gfill (cmds.flatten ++ t) st exr cs cl).cycles_sum_out
        (do_cmd_list tbl gfill (cmds.flatten ++ t) st exr cs cl).cycles_last_out).last_cmd ∧
    (do_cmd_list tbl gfill (cmds.flatten ++ t ++ ext) st exr cs cl).pvr =
      (do_cmd_list tbl gfill (t ++ ext)
        (do_cmd_list tbl gfill (cmds.flatten ++ t) st exr cs cl).pvr
        (do_cmd_list tbl gfill (cmds.flatten ++ t) st exr cs cl).ex_regs1
        (do_cmd_list tbl gfill (cmds.flatten ++ t) st exr cs cl).cycles_sum_out
        (do_cmd_list tbl gfill (cmds.flatten ++ t) st exr cs cl).cycles_last_out).pvr ∧
    (do_cmd_list tbl gfill (cmds.flatten ++ t ++ ext) st exr cs cl).ex_regs1 =
      (do_cmd_list tbl gfill (t ++ ext)
        (do_cmd_list tbl gfill (cmds.flatten ++ t) st exr cs cl).pvr
        (do_cmd_list tbl gfill (cmds.flatten ++ t) st exr cs cl).ex_regs1
        (do_cmd_list tbl gfill (cmds.flatten ++ t) st exr cs cl).cycles_sum_out
        (do_cmd_list tbl gfill (cmds.flatten ++ t) st exr cs cl).cycles_last_out).ex_regs1 ∧
    (do_cmd_list tbl gfill (cmds.flatten ++ t ++ ext) st exr cs cl).verts =
      (do_cmd_list tbl gfill (cmds.flatten ++ t) st exr cs cl).verts ++
      (do_cmd_list tbl gfill (t ++ ext)
        (do_cmd_list tbl gfill (cmds.flatten ++ t) st exr cs cl).pvr
        (do_cmd_list tbl gfill (cmds.flatten ++ t) st exr cs cl).ex_regs1
        (do_cmd_list tbl gfill (cmds.flatten ++ t) st exr cs cl).cycles_sum_out
        (do_cmd_list tbl gfill (cmds.flatten ++ t) st exr cs cl).cycles_last_out).verts ∧
    (do_cmd_list tbl gfill (cmds.flatten ++ t ++ ext) st exr cs cl).cycles_sum_out =
      (do_cmd_list tbl gfill (t ++ ext)
        (do_cmd_list tbl gfill (cmds.flatten ++ t) st exr cs cl).pvr
        (do_cmd_list tbl gfill (cmds.flatten ++ t) st exr cs cl).ex_regs1
        (do_cmd_list tbl gfill (cmds.flatten ++ t) st exr cs cl).cycles_sum_out
        (do_cmd_list tbl gfill (cmds.flatten ++ t) st exr cs cl).cycles_last_out).cycles_sum_out ∧
    (do_cmd_list tbl gfill (cmds.flatten ++ t ++ ext) st exr cs cl).cycles_last_out =
      (do_cmd_list tbl gfill (t ++ ext)
        (do_cmd_list tbl gfill (cmds.flatten ++ t) st exr cs cl).pvr
        (do_cmd_list tbl gfill (cmds.flatten ++ t) st exr cs cl).ex_regs1
        (do_cmd_list tbl gfill (cmds.flatten ++ t) st exr cs cl).cycles_sum_out
        (do_cmd_list tbl gfill (cmds.flatten ++ t) st exr cs cl).cycles_last_out).cycles_last_out := by
  obtain ⟨w, t2, rfl⟩ := List.exists_cons_of_ne_nil ht0
  have hw : ∀ st' c', runLoop tbl gfill (w :: t2) st' c' = ⟨0, -1, st', [], 0, 0⟩ :=
    fun st' c' => runLoop_trunc tbl gfill w t2 st' c' (by simpa [getw] using ht)
  have hA := runLoop_flatten tbl gfill cmds (w :: t2) st 0 hc
  have hB := runLoop_flatten tbl gfill cmds ((w :: t2) ++ ext) st 0 hc
  set A := runCmds tbl gfill cmds st 0 with hAdef
  rw [hw A.pvr A.last_cmd] at hA
  have hr : runLoop tbl gfill (cmds.flatten ++ (w :: t2)) st 0 =
      ⟨A.consumed, -1, A.pvr, A.verts, A.cycles_sum, A.cpu_cycles⟩ := by
    rw [hA]; cases A; simp [mergeRes]
  have hcarry : runLoop tbl gfill ((w :: t2) ++ ext) A.pvr A.last_cmd =
      runLoop tbl gfill ((w :: t2) ++ ext) A.pvr 0 :=
    runLoop_carry_irrel tbl gfill ((w :: t2) ++ ext) A.pvr A.last_cmd 0 (by simp)
  rw [hcarry] at hB
  set B := runLoop tbl gfill ((w :: t2) ++ ext) A.pvr 0 with hBdef
  have hfull : runLoop tbl gfill ((cmds.flatten ++ (w :: t2)) ++ ext) st 0 = mergeRes A B := by
    rw [List.append_assoc]; exact hB
  have hret : (do_cmd_list tbl gfill (cmds.flatten ++ (w :: t2)) st exr cs cl).ret =
      cmds.flatten.length := by
    simp only [do_cmd_list, hr]
    rw [hAdef, runCmds_consumed, List.length_flatten]
  have hpvr : (do_cmd_list tbl gfill (cmds.flatten ++ (w :: t2)) st exr cs cl).pvr = A.pvr := by
    simp only [do_cmd_list, hr]
  have hres : runLoop tbl gfill ((w :: t2) ++ ext)
      (do_cmd_list tbl gfill (cmds.flatten ++ (w :: t2)) st exr cs cl).pvr 0 = B := by
    rw [hpvr]
  have hexr : ∀ a b : Nat,
      exr / 512 * 512 + b % 512 = (exr / 512 * 512 + a % 512) / 512 * 512 + b % 512 :=
    fun a b => by omega
  refine ⟨hret, ?_, ?_, ?_, ?_, ?_, ?_, ?_, ?_⟩
  · simp only [do_cmd_list, hr]
  · simp only [do_cmd_list, hr, hfull, hres, mergeRes]
  · simp only [do_cmd_list, hr, hfull, hres, mergeRes]
  · simp only [do_cmd_list, hr, hfull, hres, mergeRes]
  · simp only [do_cmd_list, hr, hfull, hres, mergeRes]
    exact hexr A.pvr.gp1 B.pvr.gp1
  · simp only [do_cmd_list, hr, hfull, hres, mergeRes]
  · simp only [do_cmd_list, hr, hfull, hres, mergeRes]
    ring
  · simp only [do_cmd_list, hr, hfull, hres, mergeRes]
    ring

theorem cmd_list_truncation_resume_witness :
    (do_cmd_list sampleTbl sampleGfill
        ([[0xe1000123]].flatten ++ [0x60ff0000, 0x00020001]) init_pvr 0 0 0).ret =
      [[0xe1000123]].flatten.length ∧
    (do_cmd_list sampleTbl sampleGfill
        ([[0xe1000123]].flatten ++ [0x60ff0000, 0x00020001]) init_pvr 0 0 0).last_cmd = -1 ∧
    (do_cmd_list sampleTbl sampleGfill
        ([[0xe1000123]].flatten ++ [0x60ff0000, 0x00020001] ++ [0x00050003])
        init_pvr 0 0 0).ret =
      (do_cmd_list sampleTbl sampleGfill
        ([[0xe1000123]].flatten ++ [0x60ff0000, 0x00020001]) init_pvr 0 0 0).ret +
      (do_cmd_list sampleTbl sampleGfill ([0x60ff0000, 0x00020001] ++ [0x00050003])
        (do_cmd_list sampleTbl sampleGfill
          ([[0xe1000123]].flatten ++ [0x60ff0000, 0x00020001]) init_pvr 0 0 0).pvr
        (do_cmd_list sampleTbl sampleGfill
          ([[0xe1000123]].flatten ++ [0x60ff0000, 0x00020001]) init_pvr 0 0 0).ex_regs1
        (do_cmd_list sampleTbl sampleGfill
          ([[0xe1000123]].flatten ++ [0x60ff0000, 0x00020001]) init_pvr 0 0 0).cycles_sum_out
        (do_cmd_list sampleTbl sampleGfill
          ([[0xe1000123]].flatten ++ [0x60ff0000, 0x00020001]) init_pvr 0 0 0).cycles_last_out).ret :=
  ⟨(cmd_list_truncation_resume sampleTbl sampleGfill [[0xe1000123]]
      [0x60ff0000, 0x00020001] [0x00050003] init_pvr 0 0 0
      (by decide) (by decide) (by decide)).1,
   (cmd_list_truncation_resume sampleTbl sampleGfill [[0xe1000123]]
      [0x60ff0000, 0x00020001] [0x00050003] init_pvr 0 0 0
      (by decide) (by decide) (by decide)).2.1,
   (cmd_list_truncation_resume sampleTbl sampleGfill [[0xe1000123]]
      [0x60ff0000, 0x00020001] [0x00050003] init_pvr 0 0 0
      (by decide) (by decide) (by decide)).2.2.1⟩

/-- C3: the fill-rectangle decode masks x and width with `& 0xf` (keeping
only the LOW 4 bits) instead of the 16-pixel block rounding `(v + 14) & ~15`
announced by the spec and by the source's own comment; moreover the decoded
rectangle is discarded, and the cycle estimate uses the raw masked
halfwords: for x = 2, w = 16, h = 32 the code yields x0 = 0 and w0 = 14
(block rounding gives 16 for both) and the cost is `gput_fill 16 32`. -/
theorem fill_rect_block_mask_bug :
    (cmd_clear_image [0x02000000, 0x00000002, 0x00200010]).x0 = 0 ∧
    (2 + 14) / 16 * 16 = 16 ∧
    ¬ (cmd_clear_image [0x02000000, 0x00000002, 0x00200010]).x0 = (2 + 14) / 16 * 16 ∧
    (cmd_clear_image [0x02000000, 0x00000002, 0x00200010]).w0 = 14 ∧
    (16 + 14) / 16 * 16 = 16 ∧
    (exec_cmd sampleGfill 0x02 [0x02000000, 0x00000002, 0x00200010] init_pvr).2.2 =
      sampleGfill 16 32 := by
  decide

theorem sext11_of_mod (n : Nat) (v : Int) (h : n % 2048 = enc11 v)
    (hv1 : -1024 ≤ v) (hv2 : v ≤ 1023) : sext11 n = v := by
  unfold sext11
  unfold enc11 at h
  split_ifs <;> omega

/-- C5: the set-drawing-offset command (0xe5) sign-extends its two 11-bit
two's-complement fields (bits 0-10 for dx, bits 11-21 for dy) exactly: for
every dx, dy in [-1024, 1023] — hence for dx = -5, dy = 7 and for the
boundary values — the encoded command word decodes back to exactly
(dx, dy). -/
theorem drawing_offset_sign_extension (tbl : Nat → Nat) (gfill : Nat → Nat → Int)
    (st : PvrRenderer) (exr : Nat) (cs cl : Int) (dx dy : Int)
    (h1 : -1024 ≤ dx) (h2 : dx ≤ 1023) (h3 : -1024 ≤ dy) (h4 : dy ≤ 1023)
    (htbl : tbl 0xe5 = 0) :
    (do_cmd_list tbl gfill [0xe5000000 + enc11 dx + 2048 * enc11 dy]
      st exr cs cl).pvr.draw_dx = dx ∧
    (do_cmd_list tbl gfill [0xe5000000 + enc11 dx + 2048 * enc11 dy]
      st exr cs cl).pvr.draw_dy = dy := by
  have hdx : enc11 dx < 2048 := by unfold enc11; omega
  have hdy : enc11 dy < 2048 := by unfold enc11; omega
  have hop : opcode (0xe5000000 + enc11 dx + 2048 * enc11 dy) = 0xe5 := by
    unfold opcode; omega
  have hcomp : completeCmd tbl [0xe5000000 + enc11 dx + 2048 * enc11 dy] := by
    refine ⟨by simp, ?_⟩
    show 1 = 1 + tbl (opcode (getw [0xe5000000 + enc11 dx + 2048 * enc11 dy] 0))
    rw [show getw [0xe5000000 + enc11 dx + 2048 * enc11 dy] 0 =
      0xe5000000 + enc11 dx + 2048 * enc11 dy from rfl, hop, htbl]
  have hloop := runLoop_cons_complete tbl gfill
    [0xe5000000 + enc11 dx + 2048 * enc11 dy] [] st 0 hcomp
  rw [List.append_nil] at hloop
  have hgw : getw [0xe5000000 + enc11 dx + 2048 * enc11 dy] 0 =
      0xe5000000 + enc11 dx + 2048 * enc11 dy := rfl
  rw [hgw, hop] at hloop
  have hexec1 : (exec_cmd gfill 0xe5 [0xe5000000 + enc11 dx + 2048 * enc11 dy] st).1.draw_dx =
      sext11 (0xe5000000 + enc11 dx + 2048 * enc11 dy) := by
    norm_num [exec_cmd, getw]
  have hexec2 : (exec_cmd gfill 0xe5 [0xe5000000 + enc11 dx + 2048 * enc11 dy] st).1.draw_dy =
      sext11 ((0xe5000000 + enc11 dx + 2048 * enc11 dy) / 2048) := by
    norm_num [exec_cmd, getw]
  simp only [do_cmd_list, hloop, mergeCmd, runLoop_nil]
  constructor
  · rw [hexec1]
    exact sext11_of_mod _ dx (by unfold enc11; omega) h1 h2
  · rw [hexec2]
    exact sext11_of_mod _ dy (by unfold enc11; omega) h3 h4

theorem drawing_offset_sign_extension_witness :
    (do_cmd_list sampleTbl sampleGfill [0xe5000000 + enc11 (-5) + 2048 * enc11 7]
      init_pvr 0 0 0).pvr.draw_dx = -5 ∧
    (do_cmd_list sampleTbl sampleGfill [0xe5000000 + enc11 (-5) + 2048 * enc11 7]
      init_pvr 0 0 0).pvr.draw_dy = 7 ∧
    (do_cmd_list sampleTbl sampleGfill [0xe5000000 + enc11 (-1024) + 2048 * enc11 1023]
      init_pvr 0 0 0).pvr.draw_dx = -1024 ∧
    (do_cmd_list sampleTbl sampleGfill [0xe5000000 + enc11 (-1024) + 2048 * enc11 1023]
      init_pvr 0 0 0).pvr.draw_dy = 1023 :=
  ⟨(drawing_offset_sign_extension sampleTbl sampleGfill init_pvr 0 0 0 (-5) 7
      (by decide) (by decide) (by decide) (by decide) (by decide)).1,
   (drawing_offset_sign_extension sampleTbl sampleGfill init_pvr 0 0 0 (-5) 7
      (by decide) (by decide) (by decide) (by decide) (by decide)).2,
   (drawing_offset_sign_extension sampleTbl sampleGfill init_pvr 0 0 0 (-1024) 1023
      (by decide) (by decide) (by decide) (by decide) (by decide)).1,
   (drawing_offset_sign_extension sampleTbl sampleGfill init_pvr 0 0 0 (-1024) 1023
      (by decide) (by decide) (by decide) (by decide) (by decide)).2⟩

theorem draw_line_argb (x0 y0 : Int) (c0 : Nat) (x1 y1 : Int) (c1 : Nat) :
    ∀ v ∈ draw_line x0 y0 c0 x1 y1 c1, v.argb = c0 ∨ v.argb = c1 := by
  intro v hv
  simp only [draw_line, List.mem_cons, List.not_mem_nil, or_false] at hv
  rcases hv with rfl | rfl | rfl | rfl | rfl | rfl <;> simp

theorem rect_verts_argb (pb : List Nat) :
    ∀ v ∈ rect_verts pb, v.argb = convert_color (getw pb 0) := by
  intro v hv
  simp only [rect_verts, List.mem_cons, List.not_mem_nil, or_false] at hv
  rcases hv with rfl | rfl | rfl | rfl <;> simp

theorem poly_go_argb (mc : Bool) (nb : Nat) (pb : List Nat) :
    ∀ (rem i bufidx color : Nat), (∃ j, color = convert_color (getw pb j)) →
      ∀ v ∈ poly_go mc nb pb rem i bufidx color,
        ∃ j, v.argb = convert_color (getw pb j) := by
  intro rem
  induction rem with
  | zero => intro i bufidx color _ v hv; simp [poly_go] at hv
  | succ k ih =>
    intro i bufidx color hcol v hv
    simp only [poly_go, List.mem_cons] at hv
    rcases hv with rfl | hv
    · by_cases hpick : (i == 0 || mc) = true
      · exact ⟨bufidx, by simp [hpick]⟩
      · obtain ⟨j, hj⟩ := hcol
        exact ⟨j, by simp [hpick, hj]⟩
    · by_cases hpick : (i == 0 || mc) = true
      · simp only [hpick, if_true] at hv
        exact ih (i + 1) (bufidx + 1 + 1) _ ⟨bufidx, rfl⟩ v hv
      · simp only [hpick, if_false] at hv
        exact ih (i + 1) (bufidx + 1) _ hcol v hv

theorem poly_verts_argb (mc : Bool) (nb : Nat) (pb : List Nat) (hnb : 1 ≤ nb) :
    ∀ v ∈ poly_verts mc nb pb, ∃ j, v.argb = convert_color (getw pb j) := by
  intro v hv
  obtain ⟨k, rfl⟩ : ∃ k, nb = k + 1 := ⟨nb - 1, by omega⟩
  unfold poly_verts at hv
  simp only [poly_go, List.mem_cons] at hv
  rcases hv with rfl | hv
  · exact ⟨0, by simp⟩
  · simp only [beq_self_eq_true, Bool.true_or, if_true] at hv
    exact poly_go_argb mc (k + 1) pb k 1 2 _ ⟨0, by simp⟩ v hv

theorem line_go_argb (mc : Bool) (pb : List Nat) :
    ∀ (rem bufidx : Nat) (oldx oldy : Int) (oldcolor color : Nat),
      (∃ j, oldcolor = convert_color (getw pb j)) →
      (∃ j, color = convert_color (getw pb j)) →
      ∀ v ∈ line_go mc pb rem bufidx oldx oldy oldcolor color,
        ∃ j, v.argb = convert_color (getw pb j) := by
  intro rem
  induction rem with
  | zero => intro bufidx oldx oldy oc c _ _ v hv; simp [line_go] at hv
  | succ k ih =>
    intro bufidx oldx oldy oc c hoc hc v hv
    obtain ⟨j1, hj1⟩ := hoc
    simp only [line_go, List.mem_append] at hv
    cases mc with
    | false =>
      obtain ⟨j2, hj2⟩ := hc
      simp only [Bool.false_eq_true, if_false] at hv
      rcases hv with hv | hv
      · split_ifs at hv
        · rcases draw_line_argb _ _ _ _ _ _ v hv with h | h
          · exact ⟨j2, h.trans hj2⟩
          · exact ⟨j1, h.trans hj1⟩
        · rcases draw_line_argb _ _ _ _ _ _ v hv with h | h
          · exact ⟨j1, h.trans hj1⟩
          · exact ⟨j2, h.trans hj2⟩
      · exact ih _ _ _ _ _ ⟨j2, hj2⟩ ⟨j2, hj2⟩ v hv
    | true =>
      simp only [eq_self_iff_true, if_true] at hv
      rcases hv with hv | hv
      · split_ifs at hv
        · rcases draw_line_argb _ _ _ _ _ _ v hv with h | h
          · exact ⟨bufidx, h⟩
          · exact ⟨j1, h.trans hj1⟩
        · rcases draw_line_argb _ _ _ _ _ _ v hv with h | h
          · exact ⟨j1, h.trans hj1⟩
          · exact ⟨bufidx, h⟩
      · exact ih _ _ _ _ _ ⟨bufidx, rfl⟩ ⟨bufidx, rfl⟩ v hv

theorem line_verts_argb (mc : Bool) (pb : List Nat) :
    ∀ v ∈ line_verts mc pb, ∃ j, v.argb = convert_color (getw pb j) := by
  intro v hv
  unfold line_verts at hv
  exact line_go_argb mc pb 1 2 _ _ _ _ ⟨0, rfl⟩ ⟨0, rfl⟩ v hv

/-- C6: every colour word consumed by a drawing opcode is emitted as
`bswap32(word) >> 8`: the source-order blue/green/red bytes are reordered so
that the output is red·2^16 + green·2^8 + blue; in particular 0x00112233
becomes 0x00332211, and every vertex emitted by the rectangle, polygon and
line commands carries the conversion of one of the packet's words (for the
rectangle, of its leading colour word). -/
theorem color_conversion_bgr_rgb :
    (∀ w : Nat, convert_color w =
      w % 256 * 65536 + w / 256 % 256 * 256 + w / 65536 % 256) ∧
    convert_color 0x00112233 = 0x00332211 ∧
    (∀ pb : List Nat, ∀ v ∈ rect_verts pb, v.argb = convert_color (getw pb 0)) ∧
    (∀ (mc : Bool) (nb : Nat) (pb : List Nat), 1 ≤ nb →
      ∀ v ∈ poly_verts mc nb pb, ∃ j, v.argb = convert_color (getw pb j)) ∧
    (∀ (mc : Bool) (pb : List Nat), ∀ v ∈ line_verts mc pb,
      ∃ j, v.argb = convert_color (getw pb j)) := by
  refine ⟨?_, by decide, rect_verts_argb, ?_, line_verts_argb⟩
  · intro w
    unfold convert_color bswap32
    omega
  · intro mc nb pb hnb
    exact poly_verts_argb mc nb pb hnb

theorem color_conversion_bgr_rgb_witness :
    convert_color 0x00112233 = 0x00332211 ∧
    ((rect_verts [0x00112233, 0x00000000, 0x00000000]).getD 0 default).argb =
      convert_color (getw [0x00112233, 0x00000000, 0x00000000] 0) ∧
    (∃ j, ((poly_verts false 3 [0x00112233, 0, 1, 2]).getD 0 default).argb =
      convert_color (getw [0x00112233, 0, 1, 2] j)) ∧
    (∃ j, ((line_verts false [0x00112233, 0, 10]).getD 0 default).argb =
      convert_color (getw [0x00112233, 0, 10] j)) :=
  ⟨color_conversion_bgr_rgb.2.1,
   color_conversion_bgr_rgb.2.2.1 [0x00112233, 0x00000000, 0x00000000] _ (by decide),
   color_conversion_bgr_rgb.2.2.2.1 false 3 [0x00112233, 0, 1, 2] (by decide) _ (by decide),
   color_conversion_bgr_rgb.2.2.2.2 false [0x00112233, 0, 10] _ (by decide)⟩

/-- C7: `draw_line` always emits exactly 6 vertices with only the sixth
carrying the end-of-list flag; a 2-point line command hands the endpoint
with the smaller x to `draw_line` first (the first-listed endpoint on a
tie, since the source swaps only when `oldx > x`); and the horizontal
segment (0,0)→(10,0) emits 6 vertices whose y coordinates all lie in the
1-pixel band {0, 1}. -/
theorem line_expansion_properties (x0 y0 : Int) (c0 : Nat) (x1 y1 : Int) (c1 : Nat)
    (mc : Bool) (pb : List Nat) :
    (draw_line x0 y0 c0 x1 y1 c1).length = 6 ∧
    (∀ i : Nat, i < 6 →
      (((draw_line x0 y0 c0 x1 y1 c1).getD i default).eol = true ↔ i = 5)) ∧
    ((line_verts mc pb).getD 0 default).x =
      min (toInt16 (getw pb 1)) (toInt16 (getw pb (if mc then 3 else 2))) ∧
    (toInt16 (getw pb 1) = toInt16 (getw pb (if mc then 3 else 2)) →
      line_verts mc pb =
        draw_line (toInt16 (getw pb 1)) (toInt16 (getw pb 1 / 65536))
          (convert_color (getw pb 0))
          (toInt16 (getw pb (if mc then 3 else 2)))
          (toInt16 (getw pb (if mc then 3 else 2) / 65536))
          (if mc then convert_color (getw pb 2) else convert_color (getw pb 0))) ∧
    (line_verts false [0x00ffffff, 0x00000000, 0x0000000a]).length = 6 ∧
    ((line_verts false [0x00ffffff, 0x00000000, 0x0000000a]).map PvrVertex.eol) =
      [false, false, false, false, false, true] ∧
    (∀ v ∈ line_verts false [0x00ffffff, 0x00000000, 0x0000000a],
      v.y = 0 ∨ v.y = 1) := by
  refine ⟨rfl, ?_, ?_, ?_, by decide, by decide, by decide⟩
  · intro i hi
    interval_cases i <;> simp [draw_line]
  · cases mc with
    | false =>
      simp only [line_verts, line_go, Bool.false_eq_true, if_false, List.append_nil]
      split_ifs with hcmp
      · simp only [draw_line, List.getD_cons_zero]
        omega
      · simp only [draw_line, List.getD_cons_zero]
        omega
    | true =>
      simp only [line_verts, line_go, eq_self_iff_true, if_true, List.append_nil,
        show (2 : Nat) + 1 = 3 from rfl]
      split_ifs with hcmp
      · simp only [draw_line, List.getD_cons_zero]
        omega
      · simp only [draw_line, List.getD_cons_zero]
        omega
  · intro h
    cases mc with
    | false =>
      simp only [Bool.false_eq_true, if_false] at h ⊢
      simp only [line_verts, line_go, Bool.false_eq_true, if_false, List.append_nil]
      rw [if_neg (by omega)]
    | true =>
      simp only [eq_self_iff_true, if_true] at h ⊢
      simp only [line_verts, line_go, eq_self_iff_true, if_true, List.append_nil,
        show (2 : Nat) + 1 = 3 from rfl]
      rw [if_neg (by omega)]

theorem line_expansion_properties_witness :
    (draw_line 0 0 5 10 0 7).length = 6 ∧
    (((draw_line 0 0 5 10 0 7).getD 5 default).eol = true ↔ (5 : Nat) = 5) ∧
    ((line_verts false [0x00ffffff, 0x00000000, 0x0000000a]).getD 0 default).x =
      min (toInt16 (getw [0x00ffffff, 0x00000000, 0x0000000a] 1))
        (toInt16 (getw [0x00ffffff, 0x00000000, 0x0000000a] (if false then 3 else 2))) ∧
    (∀ v ∈ line_verts false [0x00ffffff, 0x00000000, 0x0000000a],
      v.y = 0 ∨ v.y = 1) :=
  ⟨(line_expansion_properties 0 0 5 10 0 7 false [0x00ffffff, 0x00000000, 0x0000000a]).1,
   (line_expansion_properties 0 0 5 10 0 7 false
      [0x00ffffff, 0x00000000, 0x0000000a]).2.1 5 (by decide),
   (line_expansion_properties 0 0 5 10 0 7 false
      [0x00ffffff, 0x00000000, 0x0000000a]).2.2.1,
   (line_expansion_properties 0 0 5 10 0 7 false
      [0x00ffffff, 0x00000000, 0x0000000a]).2.2.2.2.2.2⟩

set_option maxHeartbeats 1600000 in
/-- C8: each GPU state field is modified only by its designated opcode
(0xe1 → gp1, 0xe3 → clip top-left, 0xe4 → clip bottom-right, 0xe5 →
drawing offset, 0xe6 → mask flags); any opcode outside that set — drawing,
VRAM-access, unknown or unimplemented alike — leaves the whole state
unchanged, and every fully-formed command, whatever its opcode, is consumed
as exactly `1 + cmd_lengths[opcode]` words with processing continuing at
the next command. -/
theorem gpu_state_opcode_isolation (gfill : Nat → Nat → Int) (c : Nat)
    (pb : List Nat) (st : PvrRenderer) (tbl : Nat → Nat) (w : Nat)
    (t rest : List Nat) (c0 : Int)
    (hcmd : (w :: t).length = 1 + tbl (opcode w)) :
    (c ≠ 0xe1 → ((exec_cmd gfill c pb st).1).gp1 = st.gp1) ∧
    (c ≠ 0xe3 → ((exec_cmd gfill c pb st).1).draw_x1 = st.draw_x1 ∧
      ((exec_cmd gfill c pb st).1).draw_y1 = st.draw_y1) ∧
    (c ≠ 0xe4 → ((exec_cmd gfill c pb st).1).draw_x2 = st.draw_x2 ∧
      ((exec_cmd gfill c pb st).1).draw_y2 = st.draw_y2) ∧
    (c ≠ 0xe5 → ((exec_cmd gfill c pb st).1).draw_dx = st.draw_dx ∧
      ((exec_cmd gfill c pb st).1).draw_dy = st.draw_dy) ∧
    (c ≠ 0xe6 → ((exec_cmd gfill c pb st).1).set_mask = st.set_mask ∧
      ((exec_cmd gfill c pb st).1).check_mask = st.check_mask) ∧
    (c ∉ ([0xe1, 0xe3, 0xe4, 0xe5, 0xe6] : List Nat) →
      (exec_cmd gfill c pb st).1 = st) ∧
    (runLoop tbl gfill ((w :: t) ++ rest) st c0).consumed =
      (1 + tbl (opcode w)) +
      (runLoop tbl gfill rest (exec_cmd gfill (opcode w) (w :: t) st).1
        (opcode w)).consumed := by
  have hrun := runLoop_cons_complete tbl gfill (w :: t) rest st c0
    ⟨List.cons_ne_nil w t, hcmd⟩
  have hconsumed : (runLoop tbl gfill ((w :: t) ++ rest) st c0).consumed =
      (1 + tbl (opcode w)) +
      (runLoop tbl gfill rest (exec_cmd gfill (opcode w) (w :: t) st).1
        (opcode w)).consumed := by
    rw [hrun]; rfl
  clear hrun
  refine ⟨?_, ?_, ?_, ?_, ?_, ?_, hconsumed⟩
  all_goals clear hconsumed hcmd
  · intro hc; unfold exec_cmd
    split_ifs <;> rfl
  · intro hc; unfold exec_cmd
    split_ifs <;> exact ⟨rfl, rfl⟩
  · intro hc; unfold exec_cmd
    split_ifs <;> exact ⟨rfl, rfl⟩
  · intro hc; unfold exec_cmd
    split_ifs <;> exact ⟨rfl, rfl⟩
  · intro hc; unfold exec_cmd
    split_ifs <;> exact ⟨rfl, rfl⟩
  · intro hc
    have h1 : c ≠ 0xe1 := fun hh => hc (by rw [hh]; decide)
    have h3 : c ≠ 0xe3 := fun hh => hc (by rw [hh]; decide)
    have h4 : c ≠ 0xe4 := fun hh => hc (by rw [hh]; decide)
    have h5 : c ≠ 0xe5 := fun hh => hc (by rw [hh]; decide)
    have h6 : c ≠ 0xe6 := fun hh => hc (by rw [hh]; decide)
    unfold exec_cmd
    split_ifs <;> rfl

theorem gpu_state_opcode_isolation_witness :
    (exec_cmd sampleGfill 0x77 [0x77123456] init_pvr).1 = init_pvr ∧
    (runLoop sampleTbl sampleGfill ([0x77123456] ++ []) init_pvr 0).consumed =
      (1 + sampleTbl (opcode 0x77123456)) +
      (runLoop sampleTbl sampleGfill []
        (exec_cmd sampleGfill (opcode 0x77123456) [0x77123456] init_pvr).1
        (opcode 0x77123456)).consumed :=
  ⟨(gpu_state_opcode_isolation sampleGfill 0x77 [0x77123456] init_pvr sampleTbl
      0x77123456 [] [] 0 (by decide)).2.2.2.2.2.1 (by decide),
   (gpu_state_opcode_isolation sampleGfill 0x77 [0x77123456] init_pvr sampleTbl
      0x77123456 [] [] 0 (by decide)).2.2.2.2.2.2⟩
